import Mathlib

/-
Shallow embedding of `src/algos/dqn.py` (n-step Q-learning training script).

Modelling conventions:
- Python floats are modelled by `ℚ`.
- The model (`run_model.predict_on_batch`) is a pure function `S → List ℚ`
  from states to predicted action-value vectors.
- The environment (`env.step`) is an oracle `ℕ → ℕ → S × ℚ × Bool`
  mapping (step index, action) to (next state, reward, done); a stochastic
  environment corresponds to quantifying over the oracle.
- The random draws of `np.random.random()` / `np.random.randint` during
  action selection are oracles `rndU : ℕ → ℚ` and `rndA : ℕ → ℕ` indexed by
  the step counter; `np.random.shuffle` is modelled by an index list `σ`
  (a permutation of `range n` for a real draw).
- The unbounded `while True` play loop is given explicit fuel; `none` means
  the fuel ran out before the loop broke.
-/

namespace DQN

/-- Maximum of a nonempty list, as Python's `max`; returns 0 on `[]`
(where Python raises; every use in the script is on a model output,
which is a nonempty action-value vector). -/
def lmax : List ℚ → ℚ
  | [] => 0
  | x :: xs => xs.foldl max x

/-- Minimum of a nonempty list, as `np.min` on a loss history; 0 on `[]`. -/
def lmin : List ℚ → ℚ
  | [] => 0
  | x :: xs => xs.foldl min x

/-- Model of `np.max` on possibly-empty data: `none` models the
`ValueError` numpy raises on an empty sequence (line 104). -/
def npMax : List ℚ → Option ℚ
  | [] => none
  | x :: xs => some (xs.foldl max x)

/-- Model of `np.mean`; on empty input numpy produces `nan` (a warning, not
an exception), here `0 / 0 = 0`. -/
def npMean (l : List ℚ) : ℚ := l.sum / (l.length : ℚ)

/-- Helper for first-occurrence argmax: scan the tail keeping the best
index/value seen so far; a strictly greater value updates the best. -/
def argmaxFrom : ℕ → ℕ → ℚ → List ℚ → ℕ
  | _, bi, _, [] => bi
  | i, bi, bv, x :: xs =>
    if bv < x then argmaxFrom (i + 1) i x xs else argmaxFrom (i + 1) bi bv xs

/-- First-occurrence argmax of a list, as `np.argmax` (line 64); 0 on `[]`. -/
def argmaxIdx : List ℚ → ℕ
  | [] => 0
  | x :: xs => argmaxFrom 1 0 x xs

/-- Action selection (lines 61-64): with probability `tau` a uniformly
random action, otherwise the argmax action. `u` models the draw of
`np.random.random()`, `r` the draw of `np.random.randint(0, len(q))`
(reduced mod the vector length). -/
def chooseAction (tau u : ℚ) (r : ℕ) (q : List ℚ) : ℕ :=
  if u < tau then r % q.length else argmaxIdx q

/-- One recorded transition (line 66): `episode.append((state, q_value, action, reward))`. -/
structure Transition (S : Type) where
  state : S
  qValue : List ℚ
  action : ℕ
  reward : ℚ
deriving DecidableEq, Repr

/-- Result of one episode's play loop (lines 54-81). `natural` and
`finalState` are observations of the loop's exit, added for specification:
`natural` records which `break` fired (the `done` branch vs the step-cap
branch) and `finalState` the value of the `state` variable at exit. -/
structure EpResult (S : Type) where
  episode : List (Transition S)
  sumReward : ℚ
  lastQ : Option (List ℚ)
  natural : Bool
  finalState : S
deriving DecidableEq, Repr

/-- The episode play loop (lines 54-81), with explicit fuel. Arguments after
the fuel are the loop-carried variables `state`, `sum_reward`, `episode`,
`step`. Returns `none` when the fuel is exhausted before a `break`. -/
def playLoop {S : Type} (model : S → List ℚ) (env : ℕ → ℕ → S × ℚ × Bool)
    (tau : ℚ) (rndU : ℕ → ℚ) (rndA : ℕ → ℕ) (γ : ℚ) (limit : Option ℕ) :
    ℕ → S → ℚ → List (Transition S) → ℕ → Option (EpResult S)
  | 0, _, _, _, _ => none
  | fuel + 1, state, sumReward, episode, step =>
    let q := model state
    let a := chooseAction tau (rndU step) (rndA step) q
    let sr := env step a
    let episode2 := episode ++ [⟨state, q, a, sr.2.1⟩]
    let sumReward2 := sr.2.1 + γ * sumReward
    let step2 := step + 1
    if sr.2.2 then
      some ⟨episode2, sumReward2, none, true, sr.1⟩
    else if limit = some step2 then
      some ⟨episode2, sumReward2, some (model sr.1), false, sr.1⟩
    else
      playLoop model env tau rndU rndA γ limit fuel sr.1 sumReward2 episode2 step2

/-- Play one episode from initial state `s0` (the `env.reset()` value). -/
def playEpisode {S : Type} (model : S → List ℚ) (env : ℕ → ℕ → S × ℚ × Bool)
    (tau : ℚ) (rndU : ℕ → ℚ) (rndA : ℕ → ℕ) (γ : ℚ) (limit : Option ℕ)
    (s0 : S) (fuel : ℕ) : Option (EpResult S) :=
  playLoop model env tau rndU rndA γ limit fuel s0 0 [] 0

/-- Initialisation of the running return `R_sum` from `last_q` (lines 84-87):
0 when `last_q is None`, else `max(last_q)`. -/
def Rinit : Option (List ℚ) → ℚ
  | none => 0
  | some lq => lmax lq

/-- The backward unroll loop over the reversed episode (lines 89-101).
Loop-carried variables: the running return `R_sum` and `last_q`; each
iteration emits the sample `(state, target_q)` where `target_q` is a copy of
`q_value` with index `action` overwritten by the computed target `R`. -/
def unrollLoop {S : Type} (γ : ℚ) (nSteps : Bool) :
    ℚ → Option (List ℚ) → List (Transition S) → List (S × List ℚ)
  | _, _, [] => []
  | RSum, lastQ, t :: rest =>
    let RSum2 := RSum * γ + t.reward
    let R := if nSteps then RSum2 else
      t.reward + (match lastQ with
        | none => 0
        | some lq => γ * lmax lq)
    (t.state, t.qValue.set t.action R) :: unrollLoop γ nSteps RSum2 (some t.qValue) rest

/-- Target computation for one episode (lines 84-101): initialise `R_sum`
from `last_q`, then unroll the episode backward. -/
def unrollEpisode {S : Type} (γ : ℚ) (nSteps : Bool)
    (episode : List (Transition S)) (lastQ : Option (List ℚ)) : List (S × List ℚ) :=
  unrollLoop γ nSteps (Rinit lastQ) lastQ episode.reverse

/-! Basic facts about the backward unroll loop. -/

theorem unrollLoop_nil {S : Type} (γ : ℚ) (ns : Bool) (r : ℚ)
    (lq : Option (List ℚ)) : unrollLoop (S := S) γ ns r lq [] = [] := rfl

theorem unrollLoop_cons {S : Type} (γ : ℚ) (ns : Bool) (r : ℚ)
    (lq : Option (List ℚ)) (t : Transition S) (rest : List (Transition S)) :
    unrollLoop γ ns r lq (t :: rest) =
      (t.state, t.qValue.set t.action (if ns then r * γ + t.reward else
        t.reward + (match lq with
          | none => 0
          | some v => γ * lmax v))) ::
        unrollLoop γ ns (r * γ + t.reward) (some t.qValue) rest := rfl

theorem unrollLoop_length {S : Type} (γ : ℚ) (ns : Bool) :
    ∀ (l : List (Transition S)) (r : ℚ) (lq : Option (List ℚ)),
      (unrollLoop γ ns r lq l).length = l.length := by
  intro l
  induction l with
  | nil => intro r lq; rfl
  | cons t rest ih =>
    intro r lq
    rw [unrollLoop_cons, List.length_cons, List.length_cons, ih]

theorem unrollEpisode_length {S : Type} (γ : ℚ) (ns : Bool)
    (ep : List (Transition S)) (lq : Option (List ℚ)) :
    (unrollEpisode γ ns ep lq).length = ep.length := by
  unfold unrollEpisode
  rw [unrollLoop_length, List.length_reverse]

/-- Head of the 1-step unroll: the first processed transition (the last one
in forward time) gets target `reward` plus the bootstrap from the incoming
`last_q` (0 when it is `none`). -/
theorem unrollLoop_head? {S : Type} (γ : ℚ) (r : ℚ) (lq : Option (List ℚ))
    (l : List (Transition S)) :
    (unrollLoop γ false r lq l).head? = l.head?.map (fun t =>
      (t.state, t.qValue.set t.action (t.reward + match lq with
        | none => 0
        | some v => γ * lmax v))) := by
  cases l with
  | nil => rfl
  | cons t rest => rfl

/-- In 1-step mode, the sample at backward position `k + 1` bootstraps from
the transition at backward position `k` (i.e. the next transition in forward
time), because `last_q` is rolled to the previous transition's `q_value`. -/
theorem unrollLoop_getElem?_succ {S : Type} (γ : ℚ) :
    ∀ (l : List (Transition S)) (r : ℚ) (lq : Option (List ℚ)) (k : ℕ)
      (t p : Transition S), l[k]? = some p → l[k + 1]? = some t →
      (unrollLoop γ false r lq l)[k + 1]? =
        some (t.state, t.qValue.set t.action (t.reward + γ * lmax p.qValue)) := by
  intro l
  induction l with
  | nil => intro r lq k t p hp ht; simp at hp
  | cons x xs ih =>
    intro r lq k t p hp ht
    cases k with
    | zero =>
      have hp2 : x = p := by simpa using hp
      subst hp2
      have ht2 : xs.head? = some t := by
        rw [List.head?_eq_getElem?]
        simpa using ht
      rw [unrollLoop_cons, List.getElem?_cons_succ, ← List.head?_eq_getElem?,
        unrollLoop_head?, ht2]
      simp
    | succ m =>
      have hp2 : xs[m]? = some p := by simpa using hp
      have ht2 : xs[m + 1]? = some t := by simpa using ht
      rw [unrollLoop_cons, List.getElem?_cons_succ]
      exact ih _ _ m t p hp2 ht2

/-- Every sample emitted by the unroll is the matching transition's state
together with its predicted vector with only the action entry overwritten. -/
theorem unrollLoop_shape {S : Type} (γ : ℚ) (ns : Bool) :
    ∀ (l : List (Transition S)) (r : ℚ) (lq : Option (List ℚ)) (k : ℕ)
      (t : Transition S), l[k]? = some t →
      ∃ R : ℚ, (unrollLoop γ ns r lq l)[k]? =
        some (t.state, t.qValue.set t.action R) := by
  intro l
  induction l with
  | nil => intro r lq k t ht; simp at ht
  | cons x xs ih =>
    intro r lq k t ht
    cases k with
    | zero =>
      have ht2 : x = t := by simpa using ht
      subst ht2
      refine ⟨if ns then r * γ + x.reward else x.reward + (match lq with
        | none => 0
        | some v => γ * lmax v), ?_⟩
      rw [unrollLoop_cons]
      simp
    | succ m =>
      have ht2 : xs[m]? = some t := by simpa using ht
      rw [unrollLoop_cons, List.getElem?_cons_succ]
      exact ih _ _ m t ht2

theorem getLast?_cons_of_ne_nil {α : Type} {l : List α} (a : α) (h : l ≠ []) :
    (a :: l).getLast? = l.getLast? := by
  cases l with
  | nil => exact absurd rfl h
  | cons b m => exact List.getLast?_cons_cons

/-- In n-step mode with γ = 1, the last emitted sample carries the initial
running return plus the sum of all rewards of the processed list. -/
theorem unrollLoop_getLast?_nstep {S : Type} :
    ∀ (l : List (Transition S)) (r : ℚ) (lq : Option (List ℚ)),
      (unrollLoop 1 true r lq l).getLast? = l.getLast?.map (fun t =>
        (t.state, t.qValue.set t.action (r + (l.map Transition.reward).sum))) := by
  intro l
  induction l with
  | nil => intro r lq; rfl
  | cons x xs ih =>
    intro r lq
    cases xs with
    | nil =>
      rw [unrollLoop_cons, unrollLoop_nil]
      simp [mul_one]
    | cons y ys =>
      have hne : unrollLoop 1 true (r * 1 + x.reward) (some x.qValue) (y :: ys) ≠ [] := by
        intro hc
        have := unrollLoop_length (S := S) 1 true (y :: ys) (r * 1 + x.reward) (some x.qValue)
        rw [hc] at this
        simp at this
      rw [unrollLoop_cons, getLast?_cons_of_ne_nil _ hne, ih, List.getLast?_cons_cons]
      simp [mul_one, add_assoc]

/-- C1 (amended part): for an episode that terminated naturally
(`last_q is None`), in n-step mode with γ = 1 the sample of the first
transition in forward time (emitted last by the backward scan) has target
scalar equal to the sum of all rewards of the episode. -/
theorem c1_nstep_first_transition_target {S : Type} (ep : List (Transition S))
    (t : Transition S) (h : ep.head? = some t) :
    (unrollEpisode 1 true ep none).getLast? =
      some (t.state, t.qValue.set t.action ((ep.map Transition.reward).sum)) := by
  unfold unrollEpisode
  rw [unrollLoop_getLast?_nstep, List.getLast?_reverse, h]
  simp [Rinit, List.map_reverse, List.sum_reverse]

/-- C1 (counterexample): a step-cap-terminated trajectory produced by the play
loop (model predicts `[5]` everywhere, reward 1, never done, cap 1) has
first-transition target 6 in n-step mode with γ = 1, while the episode's
reward sum is 1. -/
theorem c1_counterexample :
    playEpisode (fun _ : ℕ => [(5 : ℚ)]) (fun _ _ => (0, 1, false)) 0
        (fun _ => 1) (fun _ => 0) 1 (some 1) 0 3 =
      some ⟨[⟨0, [5], 0, 1⟩], 1, some [5], false, 0⟩ ∧
    (unrollEpisode 1 true [(⟨0, [5], 0, 1⟩ : Transition ℕ)] (some [5])).getLast? =
      some (0, [6]) ∧
    (([(⟨0, [5], 0, 1⟩ : Transition ℕ)].map Transition.reward).sum = 1) ∧
    (6 : ℚ) ≠ 1 := by
  refine ⟨?_, ?_, ?_, ?_⟩
  · norm_num [playEpisode, playLoop, chooseAction, argmaxIdx, argmaxFrom]
  · norm_num [unrollEpisode, unrollLoop, Rinit, lmax]
  · norm_num
  · norm_num

/-- C2: in 1-step mode, (a) the sample of a non-final transition `i` has
target scalar `reward + γ * max(next transition's predicted vector)` — in the
backward output the sample of forward transition `i` sits at position
`length - 1 - i`; and (b) for an episode that terminated naturally
(`last_q is None`) the sample of the final transition has target scalar
exactly its reward. -/
theorem c2_one_step_targets {S : Type} (γ : ℚ) (ep : List (Transition S))
    (lq0 : Option (List ℚ)) :
    (∀ (i : ℕ) (t u : Transition S), ep[i]? = some t → ep[i + 1]? = some u →
      (unrollEpisode γ false ep lq0)[ep.length - 1 - i]? =
        some (t.state, t.qValue.set t.action (t.reward + γ * lmax u.qValue))) ∧
    (∀ t : Transition S, lq0 = none → ep.getLast? = some t →
      (unrollEpisode γ false ep lq0).head? =
        some (t.state, t.qValue.set t.action t.reward)) := by
  constructor
  · intro i t u ht hu
    have hiu : i + 1 < ep.length := by
      rcases List.getElem?_eq_some_iff.1 hu with ⟨h, _⟩
      exact h
    unfold unrollEpisode
    have e3 : ep.length - 1 - i - 1 + 1 = ep.length - 1 - i := by omega
    have hk1 : ep.reverse[ep.length - 1 - i]? = some t := by
      have e1 : ep.length - 1 - (ep.length - 1 - i) = i := by omega
      rw [List.getElem?_reverse (by omega), e1]
      exact ht
    have hk0 : ep.reverse[ep.length - 1 - i - 1]? = some u := by
      have e2 : ep.length - 1 - (ep.length - 1 - i - 1) = i + 1 := by omega
      rw [List.getElem?_reverse (by omega), e2]
      exact hu
    have key := unrollLoop_getElem?_succ γ ep.reverse (Rinit lq0) lq0
      (ep.length - 1 - i - 1) t u hk0 (by rw [e3]; exact hk1)
    rw [e3] at key
    exact key
  · intro t h0 hl
    subst h0
    unfold unrollEpisode
    rw [unrollLoop_head?, List.head?_reverse, hl]
    simp

def cT0 : Transition ℕ := ⟨0, [2, 7], 1, 10⟩

def cT1 : Transition ℕ := ⟨1, [3, 4], 1, 20⟩

def cEp2 : List (Transition ℕ) := [cT0, cT1]

/-- Witness for C2 on a concrete two-transition naturally-terminated episode
with γ = 1/2: the non-final transition's target is `10 + (1/2) * 4 = 12`, the
final transition's target is its reward 20. -/
theorem c2_one_step_targets_witness :
    (unrollEpisode (1 / 2 : ℚ) false cEp2 none)[1]? = some (0, [2, 12]) ∧
    (unrollEpisode (1 / 2 : ℚ) false cEp2 none).head? = some (1, [3, 20]) := by
  have h := c2_one_step_targets (S := ℕ) (1 / 2) cEp2 none
  have ha := h.1 0 cT0 cT1 rfl rfl
  have hb := h.2 cT1 rfl rfl
  norm_num [cEp2, cT0, cT1, lmax, List.set] at ha hb ⊢
  exact ⟨ha, hb⟩

/-- Count of coordinates at which two vectors differ (over the common
length); formalises "exactly one coordinate differs" from the claim. -/
def diffCount : List ℚ → List ℚ → ℕ
  | x :: xs, y :: ys => (if x = y then 0 else 1) + diffCount xs ys
  | _, _ => 0

/-- C4 (counterexample): a naturally-terminated one-transition trajectory
whose computed target `R = reward = 1` coincides with the predicted value
`q_value[action] = 1`: the produced target vector equals the predicted
vector, so zero coordinates differ, not exactly one. -/
theorem c4_counterexample :
    playEpisode (fun _ : ℕ => [(1 : ℚ)]) (fun _ _ => (0, 1, true)) 0
        (fun _ => 1) (fun _ => 0) 1 (some 1000) 0 3 =
      some ⟨[⟨0, [1], 0, 1⟩], 1, none, true, 0⟩ ∧
    unrollEpisode 1 false [(⟨0, [1], 0, 1⟩ : Transition ℕ)] none = [(0, [1])] ∧
    diffCount [1] [1] = 0 ∧ (0 : ℕ) ≠ 1 := by
  refine ⟨?_, ?_, ?_, ?_⟩
  · norm_num [playEpisode, playLoop, chooseAction, argmaxIdx, argmaxFrom]
  · norm_num [unrollEpisode, unrollLoop, Rinit]
  · norm_num [diffCount]
  · norm_num

/-- C4 (amended): every sample of the batch builder has a target vector of
exactly the predicted vector's shape, and at most one coordinate — the chosen
action's index — differs: all other coordinates are unchanged copies. -/
theorem c4_target_vector_shape {S : Type} (γ : ℚ) (ns : Bool)
    (ep : List (Transition S)) (lq0 : Option (List ℚ)) (k : ℕ)
    (t : Transition S) (s : S) (tq : List ℚ)
    (ht : ep.reverse[k]? = some t)
    (h : (unrollEpisode γ ns ep lq0)[k]? = some (s, tq)) :
    s = t.state ∧ tq.length = t.qValue.length ∧
      ∀ i : ℕ, i ≠ t.action → tq[i]? = t.qValue[i]? := by
  obtain ⟨R, hR⟩ := unrollLoop_shape γ ns ep.reverse (Rinit lq0) lq0 k t ht
  unfold unrollEpisode at h
  rw [hR] at h
  have h2 : (t.state, t.qValue.set t.action R) = (s, tq) := by
    exact Option.some.inj h
  obtain ⟨hs, htq⟩ := Prod.mk.inj h2
  refine ⟨hs.symm, ?_, ?_⟩
  · rw [← htq, List.length_set]
  · intro i hi
    rw [← htq]
    exact List.getElem?_set_ne (fun hc => hi hc.symm)

/-- Witness for the amended C4 at the head sample of the concrete episode
`cEp2`: state preserved, shape preserved, coordinate 0 (≠ action 1) unchanged. -/
theorem c4_target_vector_shape_witness :
    (1 : ℕ) = cT1.state ∧ ([3, 20] : List ℚ).length = cT1.qValue.length ∧
      ([3, 20] : List ℚ)[0]? = cT1.qValue[0]? := by
  have h := c4_target_vector_shape (1 / 2) false cEp2 none 0 cT1 1 [3, 20]
    (by rfl)
    (by norm_num [unrollEpisode, unrollLoop, Rinit, lmax, cEp2, cT0, cT1, List.set])
  exact ⟨h.1, h.2.1, h.2.2 0 (by norm_num [cT1])⟩

/-- Witness for the amended C1 on the concrete naturally-terminated episode
`cEp2`: the first transition's target is the reward sum `10 + 20 = 30`. -/
theorem c1_nstep_first_transition_target_witness :
    (unrollEpisode 1 true cEp2 none).getLast? = some (0, [2, 30]) := by
  have h := c1_nstep_first_transition_target cEp2 cT0 rfl
  norm_num [cEp2, cT0, cT1, List.set] at h ⊢
  exact h

/-! Exit analysis of the play loop. -/

/-- At every successful exit of the play loop, either the `done` branch fired
(`last_q` is `None`) or the step-cap branch fired (`last_q` is the model's
prediction at the state the loop stopped in); the recorded episode is never
empty. -/
theorem playLoop_exit {S : Type} (model : S → List ℚ) (env : ℕ → ℕ → S × ℚ × Bool)
    (tau : ℚ) (rndU : ℕ → ℚ) (rndA : ℕ → ℕ) (γ : ℚ) (limit : Option ℕ) :
    ∀ (fuel : ℕ) (s : S) (r : ℚ) (ep : List (Transition S)) (st : ℕ)
      (res : EpResult S),
      playLoop model env tau rndU rndA γ limit fuel s r ep st = some res →
      ((res.natural = true ∧ res.lastQ = none) ∨
        (res.natural = false ∧ res.lastQ = some (model res.finalState))) ∧
      res.episode ≠ [] := by
  intro fuel
  induction fuel with
  | zero => intro s r ep st res h; simp [playLoop] at h
  | succ m ih =>
    intro s r ep st res h
    simp only [playLoop] at h
    split at h
    · cases h
      exact ⟨Or.inl ⟨rfl, rfl⟩, by simp⟩
    · split at h
      · cases h
        exact ⟨Or.inr ⟨rfl, rfl⟩, by simp⟩
      · exact ih _ _ _ _ _ h

/-- With a positive step cap `n`, the play loop exits within `n - st` further
iterations, recording at most that many further transitions. -/
theorem playLoop_cap_terminates {S : Type} (model : S → List ℚ)
    (env : ℕ → ℕ → S × ℚ × Bool) (tau : ℚ) (rndU : ℕ → ℚ) (rndA : ℕ → ℕ)
    (γ : ℚ) (n : ℕ) :
    ∀ (fuel st : ℕ) (s : S) (r : ℚ) (ep : List (Transition S)),
      st < n → n ≤ st + fuel →
      ∃ res : EpResult S,
        playLoop model env tau rndU rndA γ (some n) fuel s r ep st = some res ∧
        res.episode.length ≤ ep.length + (n - st) := by
  intro fuel
  induction fuel with
  | zero => intro st s r ep h1 h2; omega
  | succ m ih =>
    intro st s r ep h1 h2
    simp only [playLoop]
    split
    · refine ⟨_, rfl, ?_⟩
      simp only [List.length_append, List.length_cons, List.length_nil]
      omega
    · split
      · refine ⟨_, rfl, ?_⟩
        simp only [List.length_append, List.length_cons, List.length_nil]
        omega
      · rename_i hdone hlim
        have hne : n ≠ st + 1 := fun hc => hlim (by rw [hc])
        obtain ⟨res, hres, hlen⟩ := ih (st + 1) _ _ _ (by omega) (by omega)
        refine ⟨res, hres, ?_⟩
        simp only [List.length_append, List.length_cons, List.length_nil] at hlen
        omega

/-- With no step cap, if the environment never reports done, the play loop
never exits: it runs out of any amount of fuel. -/
theorem playLoop_no_done_none {S : Type} (model : S → List ℚ)
    (env : ℕ → ℕ → S × ℚ × Bool) (tau : ℚ) (rndU : ℕ → ℚ) (rndA : ℕ → ℕ)
    (γ : ℚ) (hd : ∀ (k a : ℕ), (env k a).2.2 = false) :
    ∀ (fuel : ℕ) (s : S) (r : ℚ) (ep : List (Transition S)) (st : ℕ),
      playLoop model env tau rndU rndA γ none fuel s r ep st = none := by
  intro fuel
  induction fuel with
  | zero => intro s r ep st; rfl
  | succ m ih =>
    intro s r ep st
    simp [playLoop, hd]
    exact ih _ _ _ _

/-- C3: for every played episode, the running return of the backward scan is
seeded with `Rinit last_q`, which is 0 on natural termination (`last_q` is
`None`) and the maximum entry of the model's prediction at the final
non-terminal state on step-cap termination. -/
theorem c3_running_return_seed {S : Type} (model : S → List ℚ)
    (env : ℕ → ℕ → S × ℚ × Bool) (tau : ℚ) (rndU : ℕ → ℚ) (rndA : ℕ → ℕ)
    (γ : ℚ) (limit : Option ℕ) (s0 : S) (fuel : ℕ) (res : EpResult S)
    (h : playEpisode model env tau rndU rndA γ limit s0 fuel = some res) :
    (res.natural = true → res.lastQ = none ∧ Rinit res.lastQ = 0) ∧
    (res.natural = false → res.lastQ = some (model res.finalState) ∧
      Rinit res.lastQ = lmax (model res.finalState)) := by
  obtain ⟨hor, -⟩ := playLoop_exit model env tau rndU rndA γ limit fuel s0 0 [] 0 res h
  constructor
  · intro hn
    rcases hor with ⟨-, hq⟩ | ⟨hf, -⟩
    · exact ⟨hq, by rw [hq]; rfl⟩
    · rw [hn] at hf; cases hf
  · intro hn
    rcases hor with ⟨ht, -⟩ | ⟨-, hq⟩
    · rw [hn] at ht; cases ht
    · exact ⟨hq, by rw [hq]; rfl⟩

/-! Concrete runs used by the witnesses. -/

def cModelA : ℕ → List ℚ := fun _ => [0, 1]

def cModel5 : ℕ → List ℚ := fun _ => [5]

def cEnvDone : ℕ → ℕ → ℕ × ℚ × Bool := fun k _ => (k + 1, 1, k == 2)

def cEnvLive : ℕ → ℕ → ℕ × ℚ × Bool := fun k _ => (k + 1, 1, false)

def cU : ℕ → ℚ := fun _ => 1

def cA : ℕ → ℕ := fun _ => 0

def cRunNat : EpResult ℕ :=
  ⟨[⟨0, [0, 1], 1, 1⟩, ⟨1, [0, 1], 1, 1⟩, ⟨2, [0, 1], 1, 1⟩], 3, none, true, 3⟩

def cRunCap : EpResult ℕ := ⟨[⟨0, [5], 0, 1⟩, ⟨1, [5], 0, 1⟩], 2, some [5], false, 2⟩

theorem cRunNat_eval :
    playEpisode cModelA cEnvDone 0 cU cA 1 (some 1000) 0 5 = some cRunNat := by
  norm_num [playEpisode, playLoop, chooseAction, argmaxIdx, argmaxFrom,
    cModelA, cEnvDone, cU, cA, cRunNat]

theorem cRunCap_eval :
    playEpisode cModel5 cEnvLive 0 cU cA 1 (some 2) 0 5 = some cRunCap := by
  norm_num [playEpisode, playLoop, chooseAction, argmaxIdx, argmaxFrom,
    cModel5, cEnvLive, cU, cA, cRunCap]

/-- Witness for C3 on a concrete natural run and a concrete cap run. -/
theorem c3_running_return_seed_witness :
    (cRunNat.lastQ = none ∧ Rinit cRunNat.lastQ = 0) ∧
    (cRunCap.lastQ = some (cModel5 cRunCap.finalState) ∧
      Rinit cRunCap.lastQ = lmax (cModel5 cRunCap.finalState)) := by
  constructor
  · exact (c3_running_return_seed cModelA cEnvDone 0 cU cA 1 (some 1000) 0 5
      cRunNat cRunNat_eval).1 rfl
  · exact (c3_running_return_seed cModel5 cEnvLive 0 cU cA 1 (some 2) 0 5
      cRunCap cRunCap_eval).2 rfl

/-- C9: in 1-step mode, for a step-cap-terminated episode, the sample of the
last recorded transition (the first one processed by the backward scan) has
target scalar `reward + γ * max(model's prediction at the cutoff state)`:
the bootstrap term is present. -/
theorem c9_cap_final_bootstrap {S : Type} (model : S → List ℚ)
    (env : ℕ → ℕ → S × ℚ × Bool) (tau : ℚ) (rndU : ℕ → ℚ) (rndA : ℕ → ℕ)
    (γ : ℚ) (limit : Option ℕ) (s0 : S) (fuel : ℕ) (res : EpResult S)
    (t : Transition S)
    (h : playEpisode model env tau rndU rndA γ limit s0 fuel = some res)
    (hnat : res.natural = false)
    (ht : res.episode.getLast? = some t) :
    (unrollEpisode γ false res.episode res.lastQ).head? =
      some (t.state, t.qValue.set t.action
        (t.reward + γ * lmax (model res.finalState))) := by
  obtain ⟨hor, -⟩ := playLoop_exit model env tau rndU rndA γ limit fuel s0 0 [] 0 res h
  rcases hor with ⟨hb, -⟩ | ⟨-, hq⟩
  · rw [hnat] at hb; cases hb
  · unfold unrollEpisode
    rw [unrollLoop_head?, List.head?_reverse, ht, hq]
    simp

/-- Witness for C9 on the concrete cap run: target `1 + 1 * 5 = 6`. -/
theorem c9_cap_final_bootstrap_witness :
    (unrollEpisode 1 false cRunCap.episode cRunCap.lastQ).head? = some (1, [6]) := by
  have h := c9_cap_final_bootstrap cModel5 cEnvLive 0 cU cA 1 (some 2) 0 5
    cRunCap ⟨1, [5], 0, 1⟩ cRunCap_eval rfl rfl
  norm_num [cRunCap, cModel5, lmax, List.set] at h ⊢
  exact h

/-- C10: (a) with a positive step cap `n`, the play loop terminates within at
most `n` environment steps (fuel `n` suffices and at most `n` transitions are
recorded) whatever the environment does; (b) with no step cap, if the
environment never reports done the loop never terminates. -/
theorem c10_play_loop_termination {S : Type} (model : S → List ℚ)
    (env : ℕ → ℕ → S × ℚ × Bool) (tau : ℚ) (rndU : ℕ → ℚ) (rndA : ℕ → ℕ)
    (γ : ℚ) (s0 : S) :
    (∀ n : ℕ, 0 < n →
      ∃ res : EpResult S,
        playEpisode model env tau rndU rndA γ (some n) s0 n = some res ∧
        res.episode.length ≤ n) ∧
    (∀ fuel : ℕ, (∀ (k a : ℕ), (env k a).2.2 = false) →
      playEpisode model env tau rndU rndA γ none s0 fuel = none) := by
  constructor
  · intro n hn
    obtain ⟨res, hres, hlen⟩ := playLoop_cap_terminates model env tau rndU rndA γ
      n n 0 s0 0 [] hn (by omega)
    refine ⟨res, hres, ?_⟩
    simpa using hlen
  · intro fuel hd
    exact playLoop_no_done_none model env tau rndU rndA γ hd fuel s0 0 [] 0

/-- Witness for C10: the cap-2 run exits with fuel 2; the capless run over a
never-done environment is still looping after 7 steps of fuel. -/
theorem c10_play_loop_termination_witness :
    (playEpisode cModel5 cEnvLive 0 cU cA 1 (some 2) 0 2).isSome = true ∧
    playEpisode cModel5 cEnvLive 0 cU cA 1 none 0 7 = none := by
  constructor
  · obtain ⟨res, hres, -⟩ :=
      (c10_play_loop_termination cModel5 cEnvLive 0 cU cA 1 0).1 2 (by omega)
    rw [hres]; rfl
  · exact (c10_play_loop_termination cModel5 cEnvLive 0 cU cA 1 0).2 7 (fun k a => rfl)

/-! The full batch builder `create_batch` (lines 41-107). -/

/-- Failure modes of `create_batch` in the embedding: `fuelOut` is the
artefact of bounding the unbounded play loop; `emptyRewards` models the
`ValueError` that `np.max` raises on the empty reward list (line 104). -/
inductive BatchError where
  | fuelOut
  | emptyRewards
deriving DecidableEq, Repr

/-- Reordering by an index list, the model of `np.random.shuffle`
(line 106): a real shuffle draw corresponds to `σ` being a permutation of
`range n`. -/
def applyPerm {α : Type} (σ : List ℕ) (l : List α) : List α :=
  σ.filterMap (fun i => l[i]?)

/-- Output of `create_batch`. `episodes` (the played episodes) and `raw`
(the sample list before shuffling) are kept as observations; the function's
Python return value corresponds to `samples` (plus the logged statistics). -/
structure BatchOut (S : Type) where
  episodes : List (EpResult S)
  raw : List (S × List ℚ)
  samples : List (S × List ℚ)
  meanReward : ℚ
  maxReward : ℚ
deriving DecidableEq, Repr

/-- Play the episodes with the given indices in order (the `for` loop at
line 53); per-episode oracles are indexed by the episode number. -/
def runEpisodes {S : Type} (model : S → List ℚ) (env : ℕ → ℕ → ℕ → S × ℚ × Bool)
    (tau : ℚ) (rndU : ℕ → ℕ → ℚ) (rndA : ℕ → ℕ → ℕ) (γ : ℚ)
    (limit : Option ℕ) (reset : ℕ → S) (fuel : ℕ) :
    List ℕ → Except BatchError (List (EpResult S))
  | [] => .ok []
  | i :: rest =>
    match playLoop model (env i) tau (rndU i) (rndA i) γ limit fuel (reset i) 0 [] 0 with
    | none => .error .fuelOut
    | some res =>
      match runEpisodes model env tau rndU rndA γ limit reset fuel rest with
      | .error e => .error e
      | .ok others => .ok (res :: others)

/-- The batch builder (lines 41-107): play `numEpisodes` episodes, unroll
each into samples, compute the logged statistics over the per-episode
`sum_reward` list, shuffle, and return. -/
def create_batch {S : Type} (model : S → List ℚ) (env : ℕ → ℕ → ℕ → S × ℚ × Bool)
    (tau : ℚ) (rndU : ℕ → ℕ → ℚ) (rndA : ℕ → ℕ → ℕ) (reset : ℕ → S)
    (numEpisodes : ℕ) (nSteps : Bool) (limit : Option ℕ) (γ : ℚ)
    (σ : List ℕ) (fuel : ℕ) : Except BatchError (BatchOut S) :=
  match runEpisodes model env tau rndU rndA γ limit reset fuel (List.range numEpisodes) with
  | .error e => .error e
  | .ok eps =>
    match npMax (eps.map EpResult.sumReward) with
    | none => .error .emptyRewards
    | some mx =>
      .ok ⟨eps, (eps.map (fun r => unrollEpisode γ nSteps r.episode r.lastQ)).flatten,
        applyPerm σ ((eps.map (fun r => unrollEpisode γ nSteps r.episode r.lastQ)).flatten),
        npMean (eps.map EpResult.sumReward), mx⟩

/-- Structure of a successful `create_batch` result: the raw sample list is
the concatenation of the per-episode unrolls, and the returned samples are
the raw ones reordered by `σ`. -/
theorem create_batch_ok_shape {S : Type} (model : S → List ℚ)
    (env : ℕ → ℕ → ℕ → S × ℚ × Bool) (tau : ℚ) (rndU : ℕ → ℕ → ℚ)
    (rndA : ℕ → ℕ → ℕ) (reset : ℕ → S) (numEpisodes : ℕ) (nSteps : Bool)
    (limit : Option ℕ) (γ : ℚ) (σ : List ℕ) (fuel : ℕ) (out : BatchOut S)
    (h : create_batch model env tau rndU rndA reset numEpisodes nSteps limit γ σ fuel =
      .ok out) :
    out.raw = (out.episodes.map (fun r => unrollEpisode γ nSteps r.episode r.lastQ)).flatten ∧
    out.samples = applyPerm σ out.raw := by
  unfold create_batch at h
  split at h
  · cases h
  · split at h
    · cases h
    · cases h
      exact ⟨rfl, rfl⟩

theorem filterMap_getElem?_range {α : Type} :
    ∀ l : List α, (List.range l.length).filterMap (fun i => l[i]?) = l := by
  intro l
  induction l with
  | nil => rfl
  | cons a t ih =>
    rw [List.length_cons, List.range_succ_eq_map, List.filterMap_cons]
    simp only [List.getElem?_cons_zero, List.filterMap_map, Function.comp_def,
      List.getElem?_cons_succ]
    rw [ih]

/-- Reordering by a `σ` that is a permutation of the index range is a
permutation of the list. -/
theorem applyPerm_perm {α : Type} (l : List α) (σ : List ℕ)
    (h : σ.Perm (List.range l.length)) : (applyPerm σ l).Perm l := by
  unfold applyPerm
  have h1 := h.filterMap (fun i => l[i]?)
  rw [filterMap_getElem?_range] at h1
  exact h1

/-- C6: the number of training samples returned by `create_batch` equals the
total number of transitions recorded across all played episodes. -/
theorem c6_sample_count {S : Type} (model : S → List ℚ)
    (env : ℕ → ℕ → ℕ → S × ℚ × Bool) (tau : ℚ) (rndU : ℕ → ℕ → ℚ)
    (rndA : ℕ → ℕ → ℕ) (reset : ℕ → S) (numEpisodes : ℕ) (nSteps : Bool)
    (limit : Option ℕ) (γ : ℚ) (σ : List ℕ) (fuel : ℕ) (out : BatchOut S)
    (h : create_batch model env tau rndU rndA reset numEpisodes nSteps limit γ σ fuel =
      .ok out)
    (hσ : σ.Perm (List.range out.raw.length)) :
    out.samples.length = (out.episodes.map (fun r => r.episode.length)).sum := by
  obtain ⟨hraw, hsh⟩ := create_batch_ok_shape model env tau rndU rndA reset
    numEpisodes nSteps limit γ σ fuel out h
  have hperm : (applyPerm σ out.raw).Perm out.raw := applyPerm_perm _ _ hσ
  rw [hsh, hperm.length_eq, hraw, List.length_flatten, List.map_map]
  simp only [Function.comp_def]
  have hfun : (fun r : EpResult S => (unrollEpisode γ nSteps r.episode r.lastQ).length) =
      fun r : EpResult S => r.episode.length := by
    funext r
    exact unrollEpisode_length γ nSteps r.episode r.lastQ
  rw [hfun]

/-- C7: the shuffle is a permutation: the returned sample list is the raw
sample list reordered by `σ`, and (for any real shuffle draw, i.e. `σ` a
permutation of the index range) it is a permutation of the raw list — the
same multiset of (state, target-vector) pairs, pairs kept intact. -/
theorem c7_shuffle_is_permutation {S : Type} (model : S → List ℚ)
    (env : ℕ → ℕ → ℕ → S × ℚ × Bool) (tau : ℚ) (rndU : ℕ → ℕ → ℚ)
    (rndA : ℕ → ℕ → ℕ) (reset : ℕ → S) (numEpisodes : ℕ) (nSteps : Bool)
    (limit : Option ℕ) (γ : ℚ) (σ : List ℕ) (fuel : ℕ) (out : BatchOut S)
    (h : create_batch model env tau rndU rndA reset numEpisodes nSteps limit γ σ fuel =
      .ok out)
    (hσ : σ.Perm (List.range out.raw.length)) :
    out.samples = applyPerm σ out.raw ∧ out.samples.Perm out.raw := by
  obtain ⟨-, hsh⟩ := create_batch_ok_shape model env tau rndU rndA reset
    numEpisodes nSteps limit γ σ fuel out h
  refine ⟨hsh, ?_⟩
  rw [hsh]
  exact applyPerm_perm _ _ hσ

def cBatchOut : BatchOut ℕ :=
  ⟨[cRunNat], [(2, [0, 1]), (1, [0, 2]), (0, [0, 3])],
    [(0, [0, 3]), (2, [0, 1]), (1, [0, 2])], 3, 3⟩

theorem cBatch_eval :
    create_batch cModelA (fun _ => cEnvDone) 0 (fun _ => cU) (fun _ => cA)
      (fun _ => 0) 1 true (some 1000) 1 [2, 0, 1] 5 = .ok cBatchOut := by
  norm_num [create_batch, runEpisodes, playLoop, chooseAction, argmaxIdx,
    argmaxFrom, cModelA, cEnvDone, cU, cA, unrollEpisode, unrollLoop, Rinit,
    lmax, npMax, npMean, applyPerm, List.set, cBatchOut, cRunNat]
  rfl

/-- Witness for C6 on a concrete one-episode batch: 3 samples, one episode of
length 3. -/
theorem c6_sample_count_witness :
    cBatchOut.samples.length = (cBatchOut.episodes.map (fun r => r.episode.length)).sum := by
  refine c6_sample_count cModelA (fun _ => cEnvDone) 0 (fun _ => cU) (fun _ => cA)
    (fun _ => 0) 1 true (some 1000) 1 [2, 0, 1] 5 cBatchOut cBatch_eval ?_
  have hlen : cBatchOut.raw.length = 3 := rfl
  rw [hlen]
  decide

/-- Witness for C7 on the same concrete batch. -/
theorem c7_shuffle_is_permutation_witness :
    cBatchOut.samples = applyPerm [2, 0, 1] cBatchOut.raw ∧
    cBatchOut.samples.Perm cBatchOut.raw := by
  refine c7_shuffle_is_permutation cModelA (fun _ => cEnvDone) 0 (fun _ => cU)
    (fun _ => cA) (fun _ => 0) 1 true (some 1000) 1 [2, 0, 1] 5 cBatchOut
    cBatch_eval ?_
  have hlen : cBatchOut.raw.length = 3 := rfl
  rw [hlen]
  decide

/-- C8: with an episode count of zero, `create_batch` reaches `np.max` of the
empty per-episode reward list, which is undefined (numpy raises a
`ValueError`): the batch builder fails instead of being guarded. -/
theorem c8_zero_episodes_raises {S : Type} (model : S → List ℚ)
    (env : ℕ → ℕ → ℕ → S × ℚ × Bool) (tau : ℚ) (rndU : ℕ → ℕ → ℚ)
    (rndA : ℕ → ℕ → ℕ) (reset : ℕ → S) (nSteps : Bool) (limit : Option ℕ)
    (γ : ℚ) (σ : List ℕ) (fuel : ℕ) :
    create_batch model env tau rndU rndA reset 0 nSteps limit γ σ fuel =
      .error .emptyRewards := rfl

/-! The per-iteration fitting loop of the training loop (lines 148-159). -/

/-- The epoch loop: `hist e` is the loss history of the `model.fit` call of
epoch `e`. State mirrors the Python locals: remaining epochs, epochs already
run (`count`), and `start_loss` (`none` until the first epoch sets it to the
max of the first history; thereafter the loop breaks once
`start_loss / loss > 1.5` where `loss` is the min of the current history).
Returns the number of `model.fit` calls executed. -/
def fitEpochs (hist : ℕ → List ℚ) : ℕ → ℕ → Option ℚ → ℕ
  | 0, count, _ => count
  | n + 1, count, startLoss =>
    match startLoss with
    | none => fitEpochs hist n (count + 1) (some (lmax (hist count)))
    | some s =>
      if s / lmin (hist count) > 3 / 2 then count + 1
      else fitEpochs hist n (count + 1) (some s)

/-- Number of fitting epochs run in one training-loop iteration with epoch
cap `cap` (`epoch_limit = 10` in the script). -/
def epochsRun (hist : ℕ → List ℚ) (cap : ℕ) : ℕ := fitEpochs hist cap 0 none

theorem fitEpochs_spec (hist : ℕ → List ℚ) (s : ℚ) :
    ∀ (n c : ℕ),
      c ≤ fitEpochs hist n c (some s) ∧
      fitEpochs hist n c (some s) ≤ c + n ∧
      (∀ j : ℕ, c ≤ j → j + 1 < fitEpochs hist n c (some s) →
        ¬(s / lmin (hist j) > 3 / 2)) ∧
      (fitEpochs hist n c (some s) < c + n →
        c < fitEpochs hist n c (some s) ∧
        s / lmin (hist (fitEpochs hist n c (some s) - 1)) > 3 / 2) := by
  intro n
  induction n with
  | zero =>
    intro c
    simp only [fitEpochs]
    refine ⟨by omega, by omega, ?_, ?_⟩
    · intro j hj1 hj2 hP
      omega
    · intro hlt
      omega
  | succ m ih =>
    intro c
    by_cases hp : s / lmin (hist c) > 3 / 2
    · have he : fitEpochs hist (m + 1) c (some s) = c + 1 := by
        simp only [fitEpochs]
        rw [if_pos hp]
      rw [he]
      refine ⟨by omega, by omega, ?_, ?_⟩
      · intro j hj1 hj2 hP
        omega
      · intro hlt
        refine ⟨by omega, ?_⟩
        simpa using hp
    · have he : fitEpochs hist (m + 1) c (some s) = fitEpochs hist m (c + 1) (some s) := by
        simp only [fitEpochs]
        rw [if_neg hp]
      obtain ⟨ih1, ih2, ih3, ih4⟩ := ih (c + 1)
      rw [he]
      refine ⟨by omega, by omega, ?_, ?_⟩
      · intro j hj1 hj2
        by_cases hjc : j = c
        · subst hjc
          exact hp
        · exact ih3 j (by omega) hj2
      · intro hlt
        obtain ⟨ha, hb⟩ := ih4 (by omega)
        exact ⟨by omega, hb⟩

/-- C5: in each training-loop iteration the model is fitted for at most `cap`
epochs; no epoch strictly before the last executed one satisfied the stop
ratio (first epoch's max loss over that epoch's min loss exceeding 1.5); and
when the loop stops early (fewer than `cap` epochs), the last executed epoch
did satisfy the ratio condition. -/
theorem c5_fit_early_stop (hist : ℕ → List ℚ) (cap : ℕ) :
    epochsRun hist cap ≤ cap ∧
    (∀ i : ℕ, 1 ≤ i → i + 1 < epochsRun hist cap →
      ¬(lmax (hist 0) / lmin (hist i) > 3 / 2)) ∧
    (epochsRun hist cap < cap →
      2 ≤ epochsRun hist cap ∧
      lmax (hist 0) / lmin (hist (epochsRun hist cap - 1)) > 3 / 2) := by
  cases cap with
  | zero =>
    refine ⟨by simp [epochsRun, fitEpochs], ?_, ?_⟩
    · intro i h1 h2 hP
      simp [epochsRun, fitEpochs] at h2
    · intro h
      simp [epochsRun, fitEpochs] at h
  | succ m =>
    have he : epochsRun hist (m + 1) = fitEpochs hist m 1 (some (lmax (hist 0))) := by
      simp only [epochsRun, fitEpochs]
    obtain ⟨h1, h2, h3, h4⟩ := fitEpochs_spec hist (lmax (hist 0)) m 1
    rw [he]
    refine ⟨by omega, ?_, ?_⟩
    · intro i hi1 hi2
      exact h3 i hi1 hi2
    · intro hlt
      obtain ⟨ha, hb⟩ := h4 (by omega)
      exact ⟨by omega, hb⟩

def cHist : ℕ → List ℚ := fun i => if i ≤ 1 then [3] else [1]

theorem cHist_epochs_eval : epochsRun cHist 5 = 3 := by
  norm_num [epochsRun, fitEpochs, cHist, lmax, lmin]

/-- Witness for C5 on a concrete loss schedule `[3], [3], [1], ...` with cap
5: three epochs run; epoch 1 does not trigger the stop (ratio 1), epoch 2
does (ratio 3 > 1.5). -/
theorem c5_fit_early_stop_witness :
    epochsRun cHist 5 ≤ 5 ∧
    ¬(lmax (cHist 0) / lmin (cHist 1) > 3 / 2) ∧
    (2 ≤ epochsRun cHist 5 ∧
      lmax (cHist 0) / lmin (cHist (epochsRun cHist 5 - 1)) > 3 / 2) := by
  have h := c5_fit_early_stop cHist 5
  refine ⟨h.1, ?_, ?_⟩
  · exact h.2.1 1 (by omega) (by rw [cHist_epochs_eval]; omega)
  · exact h.2.2 (by rw [cHist_epochs_eval]; omega)

end DQN
